import Mathlib

/-!
Shallow embedding of the coin-monster streaming ingestion core.

Order-book engine (src/modules/order_book.py): prices and quantities of the
numpy float64 `(N, 2)` arrays are modelled as rationals, the arrays as lists
whose length is the allocated capacity; timestamps (pandas `Timestamp`)
are modelled as integers (nanosecond values), and fallible parses as
`Option` (`none` = the string does not parse, i.e. the Python call raises).

Stream connector (src/modules/websocket.py): the per-message dispatch loop
and the reconnect loop are modelled over explicit lists of inbound messages,
where each message carries the outcome its registered handler would produce;
exception classes become the `Exn` datatype.

Lifecycle status (src/app.py `_task_status`): an asyncio task is modelled by
the three booleans the function inspects.
-/

namespace CoinMonster

/-- Row of the `(N, 2)` float arrays: `(price, quantity)`. -/
abbrev PriceLevel := ℚ × ℚ

/-- Embedding of `_round_up` (order_book.py lines 12-24): `0` for `n ≤ 0`,
otherwise `ceil(n / magnitude) * magnitude` with
`magnitude = 10 ^ floor(log10 n)`; for a positive integer `n`,
`floor(log10 n) = Nat.log 10 n` and the ceiling division is exact. -/
def round_up (n : ℤ) : ℤ :=
  if n ≤ 0 then 0
  else
    let m := n.toNat
    let magnitude := 10 ^ Nat.log 10 m
    (((m + magnitude - 1) / magnitude) * magnitude : ℕ)

/-- Embedding of `_ensure_capacity` (order_book.py lines 26-38). The numpy
`np.zeros((new_max_levels, 2))` with `new_arr[:arr.shape[0]] = arr` becomes
the old list followed by zero rows up to the new capacity. -/
def ensure_capacity (arr : List PriceLevel) (n_levels max_levels : ℕ) :
    List PriceLevel × ℕ :=
  if n_levels ≥ max_levels then
    let new_max_levels := max (max_levels * 2) (round_up (n_levels : ℤ)).toNat
    (arr.take new_max_levels ++
       List.replicate (new_max_levels - arr.length) ((0 : ℚ), (0 : ℚ)),
     new_max_levels)
  else (arr, max_levels)

/-- State of one `OrderBook` instance (order_book.py lines 48-56). -/
structure Book where
  coin : String
  max_levels_bid : ℕ
  max_levels_ask : ℕ
  n_levels_bid : ℕ
  n_levels_ask : ℕ
  bids : List PriceLevel
  asks : List PriceLevel
  last_sequence_num : ℤ
  deriving Repr, DecidableEq

/-- Embedding of `OrderBook.__init__`: zeroed arrays of length `max_levels`,
no occupied levels, sequence sentinel `-1`. -/
def Book.init (coin : String) (max_levels : ℕ) : Book :=
  ⟨coin, max_levels, max_levels, 0, 0,
   List.replicate max_levels ((0 : ℚ), (0 : ℚ)),
   List.replicate max_levels ((0 : ℚ), (0 : ℚ)), -1⟩

/-- One entry of an `updates` array of a raw l2 message. `none` fields are
strings that do not parse (`pd.Timestamp` / float64 conversion raises). -/
structure RawUpdate where
  side : String
  price_level : Option ℚ
  new_quantity : Option ℚ
  event_time : Option ℤ
  deriving Repr, DecidableEq

/-- A raw depth message: its sequence number, its `timestamp` field (`none`
if unparsable) and the concatenation of its events' update arrays in order. -/
structure RawMessage where
  sequence_num : ℤ
  timestamp : Option ℤ
  updates : List RawUpdate
  deriving Repr, DecidableEq

/-- A fully parsed update entry. -/
structure ParsedUpdate where
  isBid : Bool
  price : ℚ
  qty : ℚ
  time : ℤ
  deriving Repr, DecidableEq

/-- Parse one update entry; fails if any field is unparsable. The side test
is `u['side'] == 'bid'` (anything else is an ask, order_book.py line 66). -/
def parseUpdate (u : RawUpdate) : Option ParsedUpdate :=
  match u.event_time, u.price_level, u.new_quantity with
  | some t, some p, some q => some ⟨u.side == "bid", p, q, t⟩
  | _, _, _ => none

/-- The dict upsert of `_parse_data` (order_book.py lines 68-77): a price not
yet present is appended (Python dicts preserve insertion order); a present
price is replaced in place only when the new event time is strictly later. -/
def upsertLevel : List (ℚ × ℚ × ℤ) → ℚ → ℚ → ℤ → List (ℚ × ℚ × ℤ)
  | [], p, q, t => [(p, q, t)]
  | (p0, q0, t0) :: rest, p, q, t =>
    if p0 = p then
      if t0 < t then (p, q, t) :: rest else (p0, q0, t0) :: rest
    else (p0, q0, t0) :: upsertLevel rest p q t

/-- The per-side accumulation loop of `_parse_data` over all update entries. -/
def foldSide (isBid : Bool) : List ParsedUpdate → List (ℚ × ℚ × ℤ) → List (ℚ × ℚ × ℤ)
  | [], acc => acc
  | u :: rest, acc =>
    foldSide isBid rest (if u.isBid = isBid then upsertLevel acc u.price u.qty u.time else acc)

/-- Drop the event times, keeping `[price, quantity]` rows in dict order
(order_book.py lines 79-87). -/
def levelsOf (m : List (ℚ × ℚ × ℤ)) : List PriceLevel :=
  m.map (fun e => (e.1, e.2.1))

/-- Parse every update entry; any unparsable field fails the whole message
(the Python loop raises on the first bad field). -/
def parseUpdates : List RawUpdate → Option (List ParsedUpdate)
  | [] => some []
  | u :: rest =>
    match parseUpdate u, parseUpdates rest with
    | some pu, some prest => some (pu :: prest)
    | _, _ => none

/-- Embedding of `OrderBook._parse_data` (order_book.py lines 58-89): parse
the message timestamp and every update entry (failure anywhere raises, i.e.
yields `none`), then fold the entries into per-side price dicts. -/
def parse_data (m : RawMessage) : Option (ℤ × List PriceLevel × List PriceLevel) :=
  match m.timestamp, parseUpdates m.updates with
  | some ts, some us =>
      some (ts, levelsOf (foldSide true us []), levelsOf (foldSide false us []))
  | _, _ => none

/-- The `keep_mask` partition, positive-quantity rows (order_book.py line 99-100). -/
def to_upsert (deltas : List PriceLevel) : List PriceLevel :=
  deltas.filter (fun d => decide (0 < d.2))

/-- Prices of the non-positive-quantity rows (order_book.py line 101). -/
def to_delete (deltas : List PriceLevel) : List ℚ :=
  (deltas.filter (fun d => !decide (0 < d.2))).map Prod.fst

/-- Deletion step of `_update_book` for one side (order_book.py lines
107-109): when there are deletions, drop every level whose price is listed. -/
def applyDeletes (deltas cur : List PriceLevel) : List PriceLevel :=
  if (to_delete deltas).isEmpty then cur
  else cur.filter (fun l => !decide (l.1 ∈ to_delete deltas))

/-- Upsert step of `_update_book` for one side (order_book.py lines
111-114): when there are upserts, drop the levels whose price is being
upserted and append the upserts. -/
def applyUpserts (deltas cur1 : List PriceLevel) : List PriceLevel :=
  if (to_upsert deltas).isEmpty then cur1
  else cur1.filter (fun l => !decide (l.1 ∈ (to_upsert deltas).map Prod.fst)) ++ to_upsert deltas

/-- The delete-then-upsert body of `_update_book` for one side
(order_book.py lines 107-114). -/
def applyDeltas (deltas cur : List PriceLevel) : List PriceLevel :=
  applyUpserts deltas (applyDeletes deltas cur)

/-- Sort key of `np.argsort(-prices)` for bids (`desc = true`) and
`np.argsort(prices)` for asks. -/
def sideLe (desc : Bool) (a b : PriceLevel) : Bool :=
  if desc then decide (b.1 ≤ a.1) else decide (a.1 ≤ b.1)

/-- Write `pre` into the front of `arr`, keeping the tail beyond `pre`
(the numpy slice assignment `self.bids[:n] = current`). -/
def writeFront (pre arr : List PriceLevel) : List PriceLevel :=
  pre.take arr.length ++ arr.drop pre.length

/-- One side of `_update_book` (order_book.py lines 98-127 for bids,
129-153 for asks): apply the deltas to the occupied prefix, sort, grow the
capacity if needed, and write the result into the array's front. Returns
the new array, the new occupied length and the new capacity. -/
def update_side (desc : Bool) (deltas arr : List PriceLevel) (n max_levels : ℕ) :
    List PriceLevel × ℕ × ℕ :=
  let current := (applyDeltas deltas (arr.take n)).mergeSort (sideLe desc)
  let grown := ensure_capacity arr current.length max_levels
  (writeFront current grown.1, current.length, grown.2)

/-- Embedding of `OrderBook._update_book` (order_book.py lines 91-153). -/
def update_book (b : Book) (bids asks : List PriceLevel) : Book :=
  let rb := update_side true bids b.bids b.n_levels_bid b.max_levels_bid
  let ra := update_side false asks b.asks b.n_levels_ask b.max_levels_ask
  ⟨b.coin, rb.2.2, ra.2.2, rb.2.1, ra.2.1, rb.1, ra.1, b.last_sequence_num⟩

/-- Book with only `last_sequence_num` replaced (order_book.py line 160). -/
def setSeq (b : Book) (s : ℤ) : Book :=
  ⟨b.coin, b.max_levels_bid, b.max_levels_ask, b.n_levels_bid, b.n_levels_ask,
   b.bids, b.asks, s⟩

/-- How `consume_message` ends on a given message. -/
inductive ConsumeResult
  | dropped
  | applied
  | parseError
  deriving Repr, DecidableEq

/-- Embedding of `OrderBook.consume_message` (order_book.py lines 155-163):
drop when `sequence_num < last_sequence_num`; otherwise update the sequence
number first, then parse (a parse exception leaves the book arrays at the
already-updated-sequence state) and apply the deltas. -/
def consume_message (b : Book) (m : RawMessage) : Book × ConsumeResult :=
  if m.sequence_num < b.last_sequence_num then (b, ConsumeResult.dropped)
  else
    match parse_data m with
    | none => (setSeq b m.sequence_num, ConsumeResult.parseError)
    | some r => (update_book (setSeq b m.sequence_num) r.2.1 r.2.2, ConsumeResult.applied)

/-- Prices of a list of levels. -/
def prices (l : List PriceLevel) : List ℚ := l.map Prod.fst

/-- Occupied prefix of the bid array. -/
def occupiedBids (b : Book) : List PriceLevel := b.bids.take b.n_levels_bid

/-- Occupied prefix of the ask array. -/
def occupiedAsks (b : Book) : List PriceLevel := b.asks.take b.n_levels_ask

/-- Strictly descending prices. -/
def StrictDesc (l : List PriceLevel) : Prop := (prices l).Pairwise (· > ·)

/-- Strictly ascending prices. -/
def StrictAsc (l : List PriceLevel) : Prop := (prices l).Pairwise (· < ·)

/-- Representation invariant the engine maintains: array length equals the
stored capacity and the occupied prefixes carry no duplicate price. -/
def BookWF (b : Book) : Prop :=
  b.bids.length = b.max_levels_bid ∧ b.asks.length = b.max_levels_ask ∧
  (prices (occupiedBids b)).Nodup ∧ (prices (occupiedAsks b)).Nodup

/-- Both occupied prefixes are strictly sorted the way `_update_book`
leaves them. -/
def BookSorted (b : Book) : Prop :=
  StrictDesc (occupiedBids b) ∧ StrictAsc (occupiedAsks b)

/-- Keys (prices) of the parse accumulator. -/
def keysA (m : List (ℚ × ℚ × ℤ)) : List ℚ := m.map Prod.fst

/-- Association lookup on the parse accumulator. -/
def lookupA : List (ℚ × ℚ × ℤ) → ℚ → Option (ℚ × ℤ)
  | [], _ => none
  | (p0, q0, t0) :: rest, p => if p0 = p then some (q0, t0) else lookupA rest p

/-- Quantity stored for a price in a parsed side. -/
def lookupQ : List PriceLevel → ℚ → Option ℚ
  | [], _ => none
  | (p0, q0) :: rest, p => if p0 = p then some q0 else lookupQ rest p

/-- Raw update carrying exactly the fields of a parsed one (every field
parses; asks use the exchange's `offer` side tag). -/
def rawOfParsed (u : ParsedUpdate) : RawUpdate :=
  ⟨if u.isBid then "bid" else "offer", some u.price, some u.qty, some u.time⟩

/-! Stream connector model (src/modules/websocket.py). -/

/-- Exception classes that can surface while one message is handled:
`schemaError` (pandera), `invalid` (voluptuous), `ingressError` (questdb)
are the three classes the dispatch loop catches; `valueError` is what an
unparsable timestamp or numeric field raises inside `_parse_data`;
`connClosed` and `cancelled` arise at the transport level. -/
inductive Exn
  | schemaError
  | invalid
  | ingressError
  | valueError
  | connClosed
  | cancelled
  deriving Repr, DecidableEq

/-- What handling one message does: return normally or raise. -/
inductive Outcome
  | ok
  | raised (e : Exn)
  deriving Repr, DecidableEq

/-- The except clauses of `_consume_messages` (websocket.py lines 103-111):
only these three classes are caught; the loop then continues. -/
def caught (e : Exn) : Bool :=
  match e with
  | Exn.schemaError => true
  | Exn.invalid => true
  | Exn.ingressError => true
  | _ => false

/-- One inbound message: its channel tag (`data.get('channel')`) and the
outcome its registered handler would produce on it. -/
structure InMsg where
  channel : Option String
  handler : Outcome
  deriving Repr, DecidableEq

/-- Channels with registered handlers (websocket.py lines 92-96). -/
def registered : List String := ["candles", "l2_data", "market_trades", "ticker"]

/-- Dispatch of one message: an unregistered or missing channel hits the
`defaultdict` fallback `no_op`, which always returns normally. -/
def dispatchOutcome (m : InMsg) : Outcome :=
  match m.channel with
  | some c => if registered.contains c then m.handler else Outcome.ok
  | none => Outcome.ok

/-- How the dispatch loop ends: the connection's message iterator was
exhausted, or an uncaught exception escaped the loop. -/
inductive LoopExit
  | finished
  | raised (e : Exn)
  deriving Repr, DecidableEq

/-- Embedding of the `_consume_messages` loop (websocket.py lines 98-111):
process messages in order, counting completed iterations; caught exception
classes drop the message and continue, any other exception escapes. -/
def consume_messages : List InMsg → ℕ → ℕ × LoopExit
  | [], k => (k, LoopExit.finished)
  | m :: rest, k =>
    match dispatchOutcome m with
    | Outcome.ok => consume_messages rest (k + 1)
    | Outcome.raised e =>
      if caught e then consume_messages rest (k + 1) else (k, LoopExit.raised e)

/-- How the reconnect loop ends. -/
inductive WsExit
  | cancelled
  | failed (e : Exn)
  | exhausted
  deriving Repr, DecidableEq

/-- Embedding of the `websocket` reconnect loop (websocket.py lines 113-131)
over the successive connections the transport yields: a finished consumer or
a `ConnectionClosedError` leads to the next connection, `CancelledError`
breaks the loop, any other exception propagates and fails the task. -/
def websocket_loop : List (List InMsg) → WsExit
  | [] => WsExit.exhausted
  | sess :: rest =>
    match (consume_messages sess 0).2 with
    | LoopExit.finished => websocket_loop rest
    | LoopExit.raised Exn.connClosed => websocket_loop rest
    | LoopExit.raised Exn.cancelled => WsExit.cancelled
    | LoopExit.raised e => WsExit.failed e

/-- Outcome of the `_level2` handler on a depth message (websocket.py lines
86-89) with a healthy sink: `consume_message` runs first, and a parse
failure inside it raises `ValueError` (from `pd.Timestamp` / float64
conversion), which is what escapes to the dispatch boundary. -/
def l2Outcome (b : Book) (m : RawMessage) : Outcome :=
  match (consume_message b m).2 with
  | ConsumeResult.parseError => Outcome.raised Exn.valueError
  | _ => Outcome.ok

/-! Lifecycle status model (src/app.py `_task_status`, lines 72-79). -/

/-- The three predicates `_task_status` inspects on an asyncio task. -/
structure TaskView where
  isDone : Bool
  isCancelled : Bool
  hasExn : Bool
  deriving Repr, DecidableEq

/-- Embedding of `_task_status`. -/
def task_status (t : TaskView) : String :=
  if !t.isDone then "running"
  else if t.isCancelled then "cancelled"
  else if t.hasExn then "failed"
  else "done"

/-! Theorems. -/

/-- Ceiling division characterisation: for positive `n` and `M`,
`(n + M - 1) / M * M` is the least multiple of `M` that is `≥ n`. -/
lemma ceil_div_mul_spec (n M : ℕ) (hn : 0 < n) (hM : 0 < M) :
    n ≤ (n + M - 1) / M * M ∧ (n + M - 1) / M * M < n + M ∧ M ∣ (n + M - 1) / M * M := by
  have hsplit : n + M - 1 = (n - 1) + M := by omega
  have hq : (n + M - 1) / M = (n - 1) / M + 1 := by
    rw [hsplit, Nat.add_div_right _ hM]
  have key1 : n - 1 < (n - 1) / M * M + M := by
    have h0 : (n - 1) / M < (n - 1) / M + 1 := Nat.lt_succ_self _
    have h1 : n - 1 < ((n - 1) / M + 1) * M := (Nat.div_lt_iff_lt_mul hM).mp h0
    calc n - 1 < ((n - 1) / M + 1) * M := h1
      _ = (n - 1) / M * M + M := by ring
  have key2 : (n - 1) / M * M ≤ n - 1 := Nat.div_mul_le_self _ _
  refine ⟨?_, ?_, ?_⟩
  · rw [hq, add_mul, one_mul]
    have h1 : n - 1 + 1 ≤ (n - 1) / M * M + M := key1
    have h2 : n - 1 + 1 = n := by omega
    rwa [h2] at h1
  · rw [hq, add_mul, one_mul]
    have h2 : (n - 1) / M * M < n := lt_of_le_of_lt key2 (Nat.sub_lt hn one_pos)
    exact Nat.add_lt_add_right h2 M
  · rw [hq]
    exact dvd_mul_left M _

/-- On a nonnegative integer that is positive, `round_up` computes the
ceiling of `n / 10 ^ log10 n` times the magnitude, all inside `ℕ`. -/
lemma round_up_pos_eq {n : ℤ} (h : 0 < n) :
    round_up n =
      ((n.toNat + 10 ^ Nat.log 10 n.toNat - 1) / 10 ^ Nat.log 10 n.toNat *
        10 ^ Nat.log 10 n.toNat : ℕ) := by
  have h0 : ¬ n ≤ 0 := not_le.mpr h
  simp [round_up, h0]

/-- Evaluation helper for concrete positive naturals with known magnitude. -/
lemma round_up_ofNat_eval (n k : ℕ) (hn : 0 < n) (h1 : 10 ^ k ≤ n) (h2 : n < 10 ^ (k + 1)) :
    round_up (n : ℤ) = ((n + 10 ^ k - 1) / 10 ^ k * 10 ^ k : ℕ) := by
  have hl : Nat.log 10 n = k := Nat.log_eq_of_pow_le_of_lt_pow h1 h2
  have hpos : (0 : ℤ) < (n : ℤ) := by exact_mod_cast hn
  rw [round_up_pos_eq hpos, Int.toNat_natCast, hl]

/-- On a positive integer, `_round_up` returns a multiple of the magnitude
`10 ^ floor(log10 n)` lying in `[n, n + magnitude)`: the least multiple of
the magnitude that is `≥ n`. -/
lemma round_up_pos_bounds {n : ℤ} (hn : 0 < n) :
    ((10 ^ Nat.log 10 n.toNat : ℕ) : ℤ) ∣ round_up n ∧
    n ≤ round_up n ∧ round_up n < n + ((10 ^ Nat.log 10 n.toNat : ℕ) : ℤ) := by
  have hnt : 0 < n.toNat := by omega
  have hM : 0 < 10 ^ Nat.log 10 n.toNat := Nat.pos_pow_of_pos _ (by norm_num)
  obtain ⟨g1, g2, g3⟩ := ceil_div_mul_spec n.toNat (10 ^ Nat.log 10 n.toNat) hnt hM
  rw [round_up_pos_eq hn]
  refine ⟨Int.natCast_dvd_natCast.mpr g3, ?_, ?_⟩
  · have h1 : (n.toNat : ℤ) ≤ ((n.toNat + 10 ^ Nat.log 10 n.toNat - 1) / 10 ^ Nat.log 10 n.toNat *
        10 ^ Nat.log 10 n.toNat : ℕ) := by exact_mod_cast g1
    omega
  · have h2 : ((n.toNat + 10 ^ Nat.log 10 n.toNat - 1) / 10 ^ Nat.log 10 n.toNat *
        10 ^ Nat.log 10 n.toNat : ℕ) < ((n.toNat + 10 ^ Nat.log 10 n.toNat : ℕ) : ℤ) := by
      exact_mod_cast g2
    push_cast at h2 ⊢
    omega

/-- C7: `_round_up` maps 2701, 2100 and 2001 to 3000, leaves 1000 fixed,
maps 0 to 0; for every positive integer it returns the least multiple of
`10 ^ floor(log10 n)` that is `≥ n`, and it returns 0 on every `n ≤ 0`. -/
theorem round_up_spec :
    round_up 2701 = 3000 ∧ round_up 2100 = 3000 ∧ round_up 2001 = 3000 ∧
    round_up 1000 = 1000 ∧ round_up 0 = 0 ∧
    (∀ n : ℤ, 0 < n →
      ((10 ^ Nat.log 10 n.toNat : ℕ) : ℤ) ∣ round_up n ∧
      n ≤ round_up n ∧ round_up n < n + ((10 ^ Nat.log 10 n.toNat : ℕ) : ℤ)) ∧
    (∀ n : ℤ, n ≤ 0 → round_up n = 0) := by
  refine ⟨?_, ?_, ?_, ?_, ?_, ?_, ?_⟩
  · have h := round_up_ofNat_eval 2701 3 (by norm_num) (by norm_num) (by norm_num)
    norm_num at h
    exact h
  · have h := round_up_ofNat_eval 2100 3 (by norm_num) (by norm_num) (by norm_num)
    norm_num at h
    exact h
  · have h := round_up_ofNat_eval 2001 3 (by norm_num) (by norm_num) (by norm_num)
    norm_num at h
    exact h
  · have h := round_up_ofNat_eval 1000 3 (by norm_num) (by norm_num) (by norm_num)
    norm_num at h
    exact h
  · simp [round_up]
  · intro n hn
    exact round_up_pos_bounds hn
  · intro n hn
    simp [round_up, hn]

/-- Witness for C7's quantified clause at `n = 42`. -/
theorem round_up_spec_witness :
    ((10 ^ Nat.log 10 (42 : ℤ).toNat : ℕ) : ℤ) ∣ round_up 42 ∧
      (42 : ℤ) ≤ round_up 42 ∧
      round_up 42 < 42 + ((10 ^ Nat.log 10 (42 : ℤ).toNat : ℕ) : ℤ) :=
  round_up_spec.2.2.2.2.2.1 42 (by norm_num)

/-- C8: `_task_status` reports exactly one of running / cancelled / failed /
done, determined in that priority order: running iff the task is not done;
cancelled iff done and cancelled; failed iff done, not cancelled, with an
exception; done iff done, not cancelled, without an exception. -/
theorem task_status_spec (t : TaskView) :
    (task_status t = "running" ↔ t.isDone = false) ∧
    (task_status t = "cancelled" ↔ t.isDone = true ∧ t.isCancelled = true) ∧
    (task_status t = "failed" ↔
      t.isDone = true ∧ t.isCancelled = false ∧ t.hasExn = true) ∧
    (task_status t = "done" ↔
      t.isDone = true ∧ t.isCancelled = false ∧ t.hasExn = false) := by
  obtain ⟨d, c, e⟩ := t
  cases d <;> cases c <;> cases e <;> refine ⟨?_, ?_, ?_, ?_⟩ <;> simp [task_status]

/-- C1: the sequence gate of `consume_message`: a message with a sequence
number strictly below `last_sequence_num` is dropped with the whole book
state unchanged; with sequence number `≥` (equality included) the sequence
number is updated to the message's value and, when the body parses, the
parsed deltas are applied to the book. -/
theorem consume_message_gate (b : Book) (m : RawMessage) :
    (m.sequence_num < b.last_sequence_num →
      consume_message b m = (b, ConsumeResult.dropped)) ∧
    (b.last_sequence_num ≤ m.sequence_num →
      (consume_message b m).1.last_sequence_num = m.sequence_num ∧
      ∀ r, parse_data m = some r →
        consume_message b m =
          (update_book (setSeq b m.sequence_num) r.2.1 r.2.2, ConsumeResult.applied)) := by
  constructor
  · intro h
    simp [consume_message, h]
  · intro h
    have h' : ¬ m.sequence_num < b.last_sequence_num := not_lt.mpr h
    constructor
    · cases hp : parse_data m <;> simp [consume_message, h', hp, setSeq, update_book]
    · intro r hr
      simp [consume_message, h', hr]

/-- Witness for C1: a stale message (sequence 3 against 10) is dropped with
the book unchanged, and a fresh message's sequence number is recorded. -/
theorem consume_message_gate_witness :
    consume_message ⟨"X", 1, 1, 0, 0, [((0 : ℚ), (0 : ℚ))], [((0 : ℚ), (0 : ℚ))], 10⟩
        ⟨3, some 0, []⟩ =
      (⟨"X", 1, 1, 0, 0, [((0 : ℚ), (0 : ℚ))], [((0 : ℚ), (0 : ℚ))], 10⟩,
        ConsumeResult.dropped) ∧
    (consume_message (Book.init "X" 1) ⟨5, some 0, []⟩).1.last_sequence_num = 5 :=
  ⟨(consume_message_gate _ _).1 (by decide),
   ((consume_message_gate (Book.init "X" 1) ⟨5, some 0, []⟩).2 (by decide)).1⟩

/-- C9: when a message passes the sequence gate but its body fails to
parse, `last_sequence_num` has already been advanced to the failing
message's sequence number while arrays, occupied lengths and capacities are
untouched, and a later message with a smaller sequence number is dropped. -/
theorem consume_message_parse_failure (b : Book) (m : RawMessage)
    (hseq : b.last_sequence_num ≤ m.sequence_num) (hfail : parse_data m = none) :
    (consume_message b m).2 = ConsumeResult.parseError ∧
    (consume_message b m).1.last_sequence_num = m.sequence_num ∧
    (consume_message b m).1.bids = b.bids ∧
    (consume_message b m).1.asks = b.asks ∧
    (consume_message b m).1.n_levels_bid = b.n_levels_bid ∧
    (consume_message b m).1.n_levels_ask = b.n_levels_ask ∧
    (consume_message b m).1.max_levels_bid = b.max_levels_bid ∧
    (consume_message b m).1.max_levels_ask = b.max_levels_ask ∧
    ∀ m2 : RawMessage, m2.sequence_num < m.sequence_num →
      consume_message (consume_message b m).1 m2 =
        ((consume_message b m).1, ConsumeResult.dropped) := by
  have h' : ¬ m.sequence_num < b.last_sequence_num := not_lt.mpr hseq
  have hc : consume_message b m = (setSeq b m.sequence_num, ConsumeResult.parseError) := by
    simp [consume_message, h', hfail]
  rw [hc]
  refine ⟨rfl, rfl, rfl, rfl, rfl, rfl, rfl, rfl, ?_⟩
  intro m2 h2
  have : m2.sequence_num < (setSeq b m.sequence_num).last_sequence_num := h2
  simp [consume_message, this]

/-- Witness for C9: an unparsable-timestamp message with sequence 7 leaves
the book's arrays alone but records sequence 7. -/
theorem consume_message_parse_failure_witness :
    (consume_message (Book.init "X" 1) ⟨7, none, []⟩).2 = ConsumeResult.parseError ∧
    (consume_message (Book.init "X" 1) ⟨7, none, []⟩).1.last_sequence_num = 7 ∧
    (consume_message (Book.init "X" 1) ⟨7, none, []⟩).1.bids = (Book.init "X" 1).bids :=
  ⟨(consume_message_parse_failure (Book.init "X" 1) ⟨7, none, []⟩ (by decide) (by decide)).1,
   (consume_message_parse_failure (Book.init "X" 1) ⟨7, none, []⟩ (by decide) (by decide)).2.1,
   (consume_message_parse_failure (Book.init "X" 1) ⟨7, none, []⟩ (by decide) (by decide)).2.2.1⟩

/-- C6: per-message containment of the dispatch loop and the reconnect
loop's behaviour: a caught class (schema validation, voluptuous validation,
sink ingestion) on one message lets the loop proceed with the next message;
a connection-closed failure is not caught there, escapes the dispatch loop,
and the reconnect loop moves to the next connection; a cancellation
terminates the reconnect loop with no further reconnects; and a message on
a channel with no registered handler is a silent no-op. -/
theorem dispatch_error_containment :
    (∀ (c : String) (e : Exn) (rest : List InMsg) (k : ℕ), caught e = true →
      consume_messages (⟨some c, Outcome.raised e⟩ :: rest) k =
        consume_messages rest (k + 1)) ∧
    caught Exn.schemaError = true ∧ caught Exn.invalid = true ∧
    caught Exn.ingressError = true ∧ caught Exn.connClosed = false ∧
    caught Exn.cancelled = false ∧
    (∀ (c : String) (rest : List InMsg) (k : ℕ), registered.contains c = true →
      consume_messages (⟨some c, Outcome.raised Exn.connClosed⟩ :: rest) k =
        (k, LoopExit.raised Exn.connClosed)) ∧
    (∀ (sess : List InMsg) (rest : List (List InMsg)),
      (consume_messages sess 0).2 = LoopExit.raised Exn.connClosed →
      websocket_loop (sess :: rest) = websocket_loop rest) ∧
    (∀ (sess : List InMsg) (rest : List (List InMsg)),
      (consume_messages sess 0).2 = LoopExit.raised Exn.cancelled →
      websocket_loop (sess :: rest) = WsExit.cancelled) ∧
    (∀ (c : String) (out : Outcome) (rest : List InMsg) (k : ℕ),
      registered.contains c = false →
      consume_messages (⟨some c, out⟩ :: rest) k = consume_messages rest (k + 1)) := by
  refine ⟨?_, rfl, rfl, rfl, rfl, rfl, ?_, ?_, ?_, ?_⟩
  · intro c e rest k hc
    by_cases hr : c ∈ registered <;>
      simp [consume_messages, dispatchOutcome, hr, hc]
  · intro c rest k hr
    have hr' : c ∈ registered := by simpa using hr
    simp [consume_messages, dispatchOutcome, hr', caught]
  · intro sess rest h
    simp [websocket_loop, h]
  · intro sess rest h
    simp [websocket_loop, h]
  · intro c out rest k hr
    have hr' : ¬ c ∈ registered := by simpa using hr
    simp [consume_messages, dispatchOutcome, hr']

/-- Witness for C6: a caught ingestion error on the ticker channel lets
the loop continue, a closed connection makes the reconnect loop move on,
and a heartbeat message (no registered handler) is a no-op. -/
theorem dispatch_error_containment_witness :
    consume_messages [⟨some "ticker", Outcome.raised Exn.ingressError⟩] 0 =
      consume_messages [] 1 ∧
    websocket_loop [[⟨some "l2_data", Outcome.raised Exn.connClosed⟩], []] =
      websocket_loop [[]] ∧
    consume_messages [⟨some "heartbeats", Outcome.ok⟩] 0 = consume_messages [] 1 :=
  ⟨dispatch_error_containment.1 "ticker" Exn.ingressError [] 0 (by decide),
   dispatch_error_containment.2.2.2.2.2.2.2.1 _ _ (by decide),
   dispatch_error_containment.2.2.2.2.2.2.2.2.2 "heartbeats" Outcome.ok [] 0 (by decide)⟩

/-- C5 counterexample: a depth message whose timestamp does not parse makes
`_level2` raise `ValueError`, which is not one of the classes the dispatch
loop catches: the loop stops after zero completed iterations (the following
message is never processed) and the connector task fails rather than
continuing. -/
theorem malformed_event_kills_connector_cex :
    consume_messages
        [⟨some "l2_data", l2Outcome (Book.init "BTC-USD" 2) ⟨1, none, []⟩⟩,
         ⟨some "ticker", Outcome.ok⟩] 0 =
      (0, LoopExit.raised Exn.valueError) ∧
    websocket_loop
        [[⟨some "l2_data", l2Outcome (Book.init "BTC-USD" 2) ⟨1, none, []⟩⟩,
          ⟨some "ticker", Outcome.ok⟩]] =
      WsExit.failed Exn.valueError ∧
    caught Exn.valueError = false := by
  decide

/-- C5 amended: a depth message with unparsable fields that passes the
sequence gate raises `ValueError` out of `_level2`; `ValueError` is not
caught at the message-dispatch boundary (only SchemaError, Invalid and
IngressError are), so the dispatch loop stops, the remaining messages are
not processed, and the failure propagates past the reconnect loop's
handlers, failing the connector task. -/
theorem malformed_event_kills_connector (b : Book) (m : RawMessage)
    (hseq : ¬ m.sequence_num < b.last_sequence_num) (hfail : parse_data m = none)
    (rest : List InMsg) (k : ℕ) (laterSessions : List (List InMsg)) :
    l2Outcome b m = Outcome.raised Exn.valueError ∧
    caught Exn.valueError = false ∧
    consume_messages (⟨some "l2_data", l2Outcome b m⟩ :: rest) k =
      (k, LoopExit.raised Exn.valueError) ∧
    websocket_loop ((⟨some "l2_data", l2Outcome b m⟩ :: rest) :: laterSessions) =
      WsExit.failed Exn.valueError := by
  have h1 : l2Outcome b m = Outcome.raised Exn.valueError := by
    simp [l2Outcome, consume_message, hseq, hfail]
  have hreg : "l2_data" ∈ registered := by decide
  have hcm : ∀ j : ℕ, consume_messages (⟨some "l2_data", l2Outcome b m⟩ :: rest) j =
      (j, LoopExit.raised Exn.valueError) := by
    intro j
    simp [consume_messages, dispatchOutcome, h1, hreg, caught]
  refine ⟨h1, rfl, hcm k, ?_⟩
  simp [websocket_loop, hcm 0]

/-- Witness for C5's amended theorem at a concrete malformed message. -/
theorem malformed_event_kills_connector_witness :
    l2Outcome (Book.init "B" 1) ⟨1, none, []⟩ = Outcome.raised Exn.valueError ∧
    caught Exn.valueError = false ∧
    consume_messages [⟨some "l2_data", l2Outcome (Book.init "B" 1) ⟨1, none, []⟩⟩] 0 =
      (0, LoopExit.raised Exn.valueError) ∧
    websocket_loop [[⟨some "l2_data", l2Outcome (Book.init "B" 1) ⟨1, none, []⟩⟩]] =
      WsExit.failed Exn.valueError :=
  malformed_event_kills_connector (Book.init "B" 1) ⟨1, none, []⟩
    (by decide) (by decide) [] 0 []

/-- The rounded-up value is at least the input. -/
lemma le_round_up_toNat (L : ℕ) : L ≤ (round_up (L : ℤ)).toNat := by
  rcases Nat.eq_zero_or_pos L with h0 | hpos
  · simp [h0, round_up]
  · have hL : (0 : ℤ) < (L : ℤ) := by exact_mod_cast hpos
    have hle : (L : ℤ) ≤ round_up (L : ℤ) := (round_up_pos_bounds hL).2.1
    omega

/-- C3: `_ensure_capacity` grows the array exactly when the resulting
length reaches the capacity, to `max (2 * C) (round_up L)`; every level at
an index below the old array length is preserved at the identical index
and the new slots are zero rows; below capacity both array and capacity
are returned unchanged. -/
theorem ensure_capacity_spec (arr : List PriceLevel) (L C : ℕ) (h : arr.length = C) :
    (C ≤ L →
      (ensure_capacity arr L C).2 = max (C * 2) (round_up (L : ℤ)).toNat ∧
      (ensure_capacity arr L C).1.length = (ensure_capacity arr L C).2 ∧
      (∀ i, i < arr.length → (ensure_capacity arr L C).1[i]? = arr[i]?) ∧
      (∀ i, arr.length ≤ i → i < (ensure_capacity arr L C).2 →
        (ensure_capacity arr L C).1[i]? = some ((0 : ℚ), (0 : ℚ)))) ∧
    (L < C → ensure_capacity arr L C = (arr, C)) := by
  constructor
  · intro hge
    have hif : L ≥ C := hge
    have hN : arr.length ≤ max (C * 2) (round_up (L : ℤ)).toNat := by
      have h1 : C ≤ C * 2 := by omega
      calc arr.length = C := h
        _ ≤ C * 2 := h1
        _ ≤ max (C * 2) (round_up (L : ℤ)).toNat := le_max_left _ _
    have htake : arr.take (max (C * 2) (round_up (L : ℤ)).toNat) = arr :=
      List.take_of_length_le hN
    have hval : ensure_capacity arr L C =
        (arr ++ List.replicate (max (C * 2) (round_up (L : ℤ)).toNat - arr.length)
          ((0 : ℚ), (0 : ℚ)), max (C * 2) (round_up (L : ℤ)).toNat) := by
      simp [ensure_capacity, hif, htake]
    rw [hval]
    refine ⟨rfl, ?_, ?_, ?_⟩
    · simp only [List.length_append, List.length_replicate]
      omega
    · intro i hi
      rw [List.getElem?_append]
      simp [hi]
    · intro i hlo hhi
      rw [List.getElem?_append]
      simp only [if_neg (by omega : ¬ i < arr.length)]
      rw [List.getElem?_replicate]
      simp only [List.length_replicate] at hhi ⊢
      rw [if_pos (by omega)]
  · intro hlt
    have hif : ¬ L ≥ C := by omega
    simp [ensure_capacity, hif]

/-- Witness for C3: growth preserves index 0 on a full two-level array, and
an array below capacity is returned unchanged. -/
theorem ensure_capacity_spec_witness :
    (ensure_capacity [((1 : ℚ), (2 : ℚ)), ((3 : ℚ), (4 : ℚ))] 2 2).1[0]? =
      [((1 : ℚ), (2 : ℚ)), ((3 : ℚ), (4 : ℚ))][0]? ∧
    ensure_capacity [((1 : ℚ), (2 : ℚ))] 0 1 = ([((1 : ℚ), (2 : ℚ))], 1) :=
  ⟨((ensure_capacity_spec [((1 : ℚ), (2 : ℚ)), ((3 : ℚ), (4 : ℚ))] 2 2 (by decide)).1
      (by decide)).2.2.1 0 (by decide),
   (ensure_capacity_spec [((1 : ℚ), (2 : ℚ))] 0 1 (by decide)).2 (by decide)⟩

/-- Prices distribute over append. -/
lemma prices_append (l1 l2 : List PriceLevel) :
    prices (l1 ++ l2) = prices l1 ++ prices l2 :=
  List.map_append _ _ _

/-- Filtering keeps the price list duplicate-free. -/
lemma nodup_prices_filter (p : PriceLevel → Bool) {l : List PriceLevel}
    (h : (prices l).Nodup) : (prices (l.filter p)).Nodup :=
  ((List.filter_sublist l).map Prod.fst).nodup h

/-- Membership in the deletion step: survivors come from the input and
carry no deleted price. -/
lemma applyDeletes_mem {deltas cur : List PriceLevel} {x : PriceLevel}
    (hx : x ∈ applyDeletes deltas cur) :
    x ∈ cur ∧ x.1 ∉ to_delete deltas := by
  unfold applyDeletes at hx
  by_cases hD : (to_delete deltas).isEmpty
  · rw [if_pos hD] at hx
    refine ⟨hx, ?_⟩
    rw [List.isEmpty_iff.mp hD]
    simp
  · rw [if_neg hD] at hx
    have h := List.mem_filter.mp hx
    refine ⟨h.1, ?_⟩
    simpa using h.2

/-- Membership in the upsert step: an element is an upsert, or comes from
the input with a price not being upserted. -/
lemma applyUpserts_mem {deltas cur1 : List PriceLevel} {x : PriceLevel}
    (hx : x ∈ applyUpserts deltas cur1) :
    x ∈ to_upsert deltas ∨
      (x ∈ cur1 ∧ x.1 ∉ (to_upsert deltas).map Prod.fst) := by
  unfold applyUpserts at hx
  by_cases hU : (to_upsert deltas).isEmpty
  · rw [if_pos hU] at hx
    refine Or.inr ⟨hx, ?_⟩
    rw [List.isEmpty_iff.mp hU]
    simp
  · rw [if_neg hU] at hx
    rcases List.mem_append.mp hx with h | h
    · have h' := List.mem_filter.mp h
      exact Or.inr ⟨h'.1, by simpa using h'.2⟩
    · exact Or.inl h

/-- Applying deltas with duplicate-free prices to a duplicate-free side
yields a duplicate-free side. -/
lemma applyDeltas_nodup (deltas cur : List PriceLevel)
    (hd : (prices deltas).Nodup) (hc : (prices cur).Nodup) :
    (prices (applyDeltas deltas cur)).Nodup := by
  have hc1 : (prices (applyDeletes deltas cur)).Nodup := by
    unfold applyDeletes
    by_cases hD : (to_delete deltas).isEmpty
    · rwa [if_pos hD]
    · rw [if_neg hD]
      exact nodup_prices_filter _ hc
  have hup : (prices (to_upsert deltas)).Nodup := nodup_prices_filter _ hd
  unfold applyDeltas applyUpserts
  by_cases hU : (to_upsert deltas).isEmpty
  · rwa [if_pos hU]
  · rw [if_neg hU, prices_append]
    refine List.Nodup.append (nodup_prices_filter _ hc1) hup ?_
    intro a ha hb
    obtain ⟨x, hx, hxa⟩ := List.mem_map.mp ha
    have hpr := List.of_mem_filter hx
    simp only [Bool.not_eq_true', decide_eq_false_iff_not] at hpr
    rw [hxa] at hpr
    exact hpr hb

/-- The bid comparator is transitive. -/
lemma sideLe_trans (desc : Bool) :
    ∀ a b c : PriceLevel, sideLe desc a b = true → sideLe desc b c = true →
      sideLe desc a c = true := by
  cases desc <;> intro a b c h1 h2 <;> simp [sideLe] at h1 h2 ⊢
  · exact le_trans h1 h2
  · exact le_trans h2 h1

/-- The comparator is total. -/
lemma sideLe_total (desc : Bool) :
    ∀ a b : PriceLevel, (sideLe desc a b || sideLe desc b a) = true := by
  cases desc <;> intro a b <;> simp [sideLe]
  · exact le_total a.1 b.1
  · exact le_total b.1 a.1

/-- Sorting a duplicate-free-price list with the bid comparator yields
strictly descending prices. -/
lemma mergeSort_strictDesc (l : List PriceLevel) (h : (prices l).Nodup) :
    StrictDesc (l.mergeSort (sideLe true)) := by
  have hs := List.sorted_mergeSort (sideLe_trans true) (sideLe_total true) l
  have hperm : (l.mergeSort (sideLe true)).Perm l := List.mergeSort_perm l _
  have hnd : (prices (l.mergeSort (sideLe true))).Nodup :=
    h.perm (hperm.map Prod.fst).symm
  have hne : (l.mergeSort (sideLe true)).Pairwise (fun a b : PriceLevel => a.1 ≠ b.1) :=
    List.pairwise_map.mp hnd
  have hle : (l.mergeSort (sideLe true)).Pairwise
      (fun a b : PriceLevel => b.1 ≤ a.1) := by
    refine hs.imp ?_
    intro a b hab
    simpa [sideLe] using hab
  unfold StrictDesc prices
  rw [List.pairwise_map]
  refine (hle.and hne).imp ?_
  intro a b hab
  exact lt_of_le_of_ne hab.1 (Ne.symm hab.2)

/-- Sorting a duplicate-free-price list with the ask comparator yields
strictly ascending prices. -/
lemma mergeSort_strictAsc (l : List PriceLevel) (h : (prices l).Nodup) :
    StrictAsc (l.mergeSort (sideLe false)) := by
  have hs := List.sorted_mergeSort (sideLe_trans false) (sideLe_total false) l
  have hperm : (l.mergeSort (sideLe false)).Perm l := List.mergeSort_perm l _
  have hnd : (prices (l.mergeSort (sideLe false))).Nodup :=
    h.perm (hperm.map Prod.fst).symm
  have hne : (l.mergeSort (sideLe false)).Pairwise (fun a b : PriceLevel => a.1 ≠ b.1) :=
    List.pairwise_map.mp hnd
  have hle : (l.mergeSort (sideLe false)).Pairwise
      (fun a b : PriceLevel => a.1 ≤ b.1) := by
    refine hs.imp ?_
    intro a b hab
    simpa [sideLe] using hab
  unfold StrictAsc prices
  rw [List.pairwise_map]
  refine (hle.and hne).imp ?_
  intro a b hab
  exact lt_of_le_of_ne hab.1 hab.2

/-- Length and bound facts about `ensure_capacity` under the invariant
that the array length equals the stored capacity. -/
lemma ensure_capacity_len (arr : List PriceLevel) (L C : ℕ) (h : arr.length = C) :
    (ensure_capacity arr L C).1.length = (ensure_capacity arr L C).2 ∧
    L ≤ (ensure_capacity arr L C).2 := by
  unfold ensure_capacity
  by_cases hge : L ≥ C
  · rw [if_pos hge]
    constructor
    · simp only [List.length_append, List.length_take, List.length_replicate]
      have hN : arr.length ≤ max (C * 2) (round_up (L : ℤ)).toNat := by
        have h1 : C ≤ C * 2 := by omega
        omega
      omega
    · exact le_trans (le_round_up_toNat L) (le_max_right _ _)
  · rw [if_neg hge]
    exact ⟨h, by omega⟩

/-- Writing a prefix that fits leaves it readable at the front and keeps
the array length. -/
lemma writeFront_spec (pre arr : List PriceLevel) (h : pre.length ≤ arr.length) :
    (writeFront pre arr).take pre.length = pre ∧
    (writeFront pre arr).length = arr.length := by
  unfold writeFront
  rw [List.take_of_length_le h]
  constructor
  · rw [List.take_append_of_le_length (le_refl _)]
    exact List.take_length pre
  · simp only [List.length_append, List.length_drop]
    omega

/-- The occupied prefix produced by `update_side`: under the array-length
invariant the new array's length is the new capacity, the new occupied
length fits, and the occupied prefix is exactly the sorted updated side. -/
lemma update_side_occupied (desc : Bool) (deltas arr : List PriceLevel) (n C : ℕ)
    (h : arr.length = C) :
    (update_side desc deltas arr n C).1.length = (update_side desc deltas arr n C).2.2 ∧
    (update_side desc deltas arr n C).2.1 ≤ (update_side desc deltas arr n C).2.2 ∧
    (update_side desc deltas arr n C).1.take (update_side desc deltas arr n C).2.1 =
      (applyDeltas deltas (arr.take n)).mergeSort (sideLe desc) := by
  obtain ⟨hlen, hle⟩ :=
    ensure_capacity_len arr ((applyDeltas deltas (arr.take n)).mergeSort (sideLe desc)).length C h
  have hfit : ((applyDeltas deltas (arr.take n)).mergeSort (sideLe desc)).length ≤
      (ensure_capacity arr ((applyDeltas deltas (arr.take n)).mergeSort (sideLe desc)).length C).1.length := by
    rw [hlen]
    exact hle
  obtain ⟨ht, hl⟩ := writeFront_spec _ _ hfit
  unfold update_side
  exact ⟨by rw [hl, hlen], hle, ht⟩

/-- Occupied prefixes, lengths and the sequence number after `_update_book`
under the array-length invariant. -/
lemma update_book_occupied (b : Book) (dB dA : List PriceLevel)
    (hb : b.bids.length = b.max_levels_bid) (ha : b.asks.length = b.max_levels_ask) :
    occupiedBids (update_book b dB dA) =
      (applyDeltas dB (occupiedBids b)).mergeSort (sideLe true) ∧
    occupiedAsks (update_book b dB dA) =
      (applyDeltas dA (occupiedAsks b)).mergeSort (sideLe false) ∧
    (update_book b dB dA).bids.length = (update_book b dB dA).max_levels_bid ∧
    (update_book b dB dA).asks.length = (update_book b dB dA).max_levels_ask ∧
    (update_book b dB dA).n_levels_bid =
      ((applyDeltas dB (occupiedBids b)).mergeSort (sideLe true)).length ∧
    (update_book b dB dA).n_levels_ask =
      ((applyDeltas dA (occupiedAsks b)).mergeSort (sideLe false)).length ∧
    (update_book b dB dA).last_sequence_num = b.last_sequence_num := by
  obtain ⟨h1b, h2b, h3b⟩ := update_side_occupied true dB b.bids b.n_levels_bid b.max_levels_bid hb
  obtain ⟨h1a, h2a, h3a⟩ := update_side_occupied false dA b.asks b.n_levels_ask b.max_levels_ask ha
  refine ⟨h3b, h3a, h1b, h1a, rfl, rfl, rfl⟩

/-- One `_update_book` call preserves the representation invariant and
leaves both occupied prefixes strictly sorted, given deltas whose prices
are duplicate-free. -/
lemma update_book_preserves (b : Book) (dB dA : List PriceLevel)
    (hwf : BookWF b) (hdB : (prices dB).Nodup) (hdA : (prices dA).Nodup) :
    BookWF (update_book b dB dA) ∧ BookSorted (update_book b dB dA) := by
  obtain ⟨hb, ha, hob, hoa⟩ := hwf
  obtain ⟨hoB, hoA, hlb, hla, _, _, _⟩ := update_book_occupied b dB dA hb ha
  have hndB : (prices (applyDeltas dB (occupiedBids b))).Nodup :=
    applyDeltas_nodup dB (occupiedBids b) hdB hob
  have hndA : (prices (applyDeltas dA (occupiedAsks b))).Nodup :=
    applyDeltas_nodup dA (occupiedAsks b) hdA hoa
  have hpermB : ((applyDeltas dB (occupiedBids b)).mergeSort (sideLe true)).Perm
      (applyDeltas dB (occupiedBids b)) := List.mergeSort_perm _ _
  have hpermA : ((applyDeltas dA (occupiedAsks b)).mergeSort (sideLe false)).Perm
      (applyDeltas dA (occupiedAsks b)) := List.mergeSort_perm _ _
  refine ⟨⟨hlb, hla, ?_, ?_⟩, ?_, ?_⟩
  · rw [hoB]
    exact hndB.perm (hpermB.map Prod.fst).symm
  · rw [hoA]
    exact hndA.perm (hpermA.map Prod.fst).symm
  · rw [hoB]
    exact mergeSort_strictDesc _ hndB
  · rw [hoA]
    exact mergeSort_strictAsc _ hndA

/-- Folding well-formed delta messages preserves the invariant and the
sortedness of both sides. -/
lemma foldl_update_book_inv (msgs : List (List PriceLevel × List PriceLevel))
    (hmsgs : ∀ d ∈ msgs, (prices d.1).Nodup ∧ (prices d.2).Nodup) :
    ∀ b : Book, BookWF b → BookSorted b →
      BookWF (msgs.foldl (fun b d => update_book b d.1 d.2) b) ∧
      BookSorted (msgs.foldl (fun b d => update_book b d.1 d.2) b) := by
  induction msgs with
  | nil => intro b hwf hs; exact ⟨hwf, hs⟩
  | cons d rest ih =>
    intro b hwf hs
    have hd := hmsgs d (List.mem_cons_self d rest)
    obtain ⟨hwf', hs'⟩ := update_book_preserves b d.1 d.2 hwf hd.1 hd.2
    exact ih (fun x hx => hmsgs x (List.mem_cons_of_mem d hx)) _ hwf' hs'

/-- C2: starting from an empty book, after any sequence of parsed depth
delta messages (each side of each message with duplicate-free prices, as
`_parse_data` guarantees) the occupied bid prefix is strictly descending
by price, the occupied ask prefix strictly ascending, and neither side
holds a duplicate price; since the message list is arbitrary this holds
after every update. -/
theorem update_book_sorted (coin : String) (C : ℕ)
    (msgs : List (List PriceLevel × List PriceLevel))
    (hmsgs : ∀ d ∈ msgs, (prices d.1).Nodup ∧ (prices d.2).Nodup) :
    StrictDesc (occupiedBids
      (msgs.foldl (fun b d => update_book b d.1 d.2) (Book.init coin C))) ∧
    StrictAsc (occupiedAsks
      (msgs.foldl (fun b d => update_book b d.1 d.2) (Book.init coin C))) ∧
    (prices (occupiedBids
      (msgs.foldl (fun b d => update_book b d.1 d.2) (Book.init coin C)))).Nodup ∧
    (prices (occupiedAsks
      (msgs.foldl (fun b d => update_book b d.1 d.2) (Book.init coin C)))).Nodup := by
  have hwf0 : BookWF (Book.init coin C) := by
    refine ⟨by simp [Book.init], by simp [Book.init], ?_, ?_⟩ <;>
      simp [Book.init, occupiedBids, occupiedAsks, prices]
  have hs0 : BookSorted (Book.init coin C) := by
    constructor <;>
      simp [Book.init, BookSorted, occupiedBids, occupiedAsks, StrictDesc, StrictAsc, prices]
  obtain ⟨⟨_, _, hnb, hna⟩, hsd, hsa⟩ := foldl_update_book_inv msgs hmsgs _ hwf0 hs0
  exact ⟨hsd, hsa, hnb, hna⟩

/-- Witness for C2 at a concrete two-message sequence. -/
theorem update_book_sorted_witness :
    StrictDesc (occupiedBids
      (([([((100 : ℚ), (1 : ℚ)), ((99 : ℚ), (2 : ℚ))], [((101 : ℚ), (1 : ℚ))]),
         ([((100 : ℚ), (0 : ℚ))], [((102 : ℚ), (3 : ℚ))])] :
          List (List PriceLevel × List PriceLevel)).foldl
        (fun b d => update_book b d.1 d.2) (Book.init "BTC-USD" 2))) :=
  (update_book_sorted "BTC-USD" 2 _ (by decide)).1

/-- Two lists sorted by the same side comparator, with duplicate-free
prices, that are permutations of each other are equal. -/
lemma eq_of_perm_sorted_nodup (desc : Bool) (S T : List PriceLevel)
    (hperm : T.Perm S)
    (hT : T.Pairwise (fun a b => sideLe desc a b = true))
    (hS : S.Pairwise (fun a b => sideLe desc a b = true))
    (hnd : (prices S).Nodup) : T = S := by
  have hndT : (prices T).Nodup := hnd.perm (hperm.map Prod.fst).symm
  have hneS : S.Pairwise (fun a b : PriceLevel => a.1 ≠ b.1) := List.pairwise_map.mp hnd
  have hneT : T.Pairwise (fun a b : PriceLevel => a.1 ≠ b.1) := List.pairwise_map.mp hndT
  haveI : IsAntisymm PriceLevel
      (fun a b => sideLe desc a b = true ∧ a.1 ≠ b.1) := by
    constructor
    intro a b hab hba
    have heq : a.1 = b.1 := by
      obtain ⟨h1, _⟩ := hab
      obtain ⟨h2, _⟩ := hba
      cases desc <;> simp [sideLe] at h1 h2
      · exact le_antisymm h1 h2
      · exact le_antisymm h2 h1
    exact absurd heq hab.2
  exact List.eq_of_perm_of_sorted hperm (hT.and hneT) (hS.and hneS)

/-- Under duplicate-free delta prices, no upserted row's price appears in
the deletion list (each price occurs at most once in a message side). -/
lemma upsert_delete_disjoint (deltas : List PriceLevel)
    (hd : (prices deltas).Nodup) :
    ∀ x ∈ to_upsert deltas, x.1 ∉ to_delete deltas := by
  intro x hx hmem
  have hperm := List.filter_append_perm (fun d => decide (0 < d.2)) deltas
  have hnd2 : (prices (deltas.filter (fun d => decide (0 < d.2)) ++
      deltas.filter (fun d => !decide (0 < d.2)))).Nodup :=
    hd.perm (hperm.map Prod.fst).symm
  rw [prices_append] at hnd2
  have hdisj := (List.nodup_append.mp hnd2).2.2
  exact hdisj (List.mem_map_of_mem Prod.fst hx) hmem

/-- Every survivor of `applyDeltas` has a price outside the deletion list. -/
lemma applyDeltas_no_delete (deltas cur : List PriceLevel)
    (hd : (prices deltas).Nodup) :
    ∀ x ∈ applyDeltas deltas cur, x.1 ∉ to_delete deltas := by
  intro x hx
  unfold applyDeltas at hx
  rcases applyUpserts_mem hx with h | ⟨h1, _⟩
  · exact upsert_delete_disjoint deltas hd x h
  · exact (applyDeletes_mem h1).2

/-- Applying the same deltas to any permutation of an already-updated side
permutes that side: deletions are no-ops and the upserts replace the rows
they inserted the first time. -/
lemma applyDeltas_idem_perm (deltas cur S : List PriceLevel)
    (hd : (prices deltas).Nodup) (hS : S.Perm (applyDeltas deltas cur)) :
    (applyDeltas deltas S).Perm S := by
  have hdel : applyDeletes deltas S = S := by
    unfold applyDeletes
    by_cases hD : (to_delete deltas).isEmpty
    · rw [if_pos hD]
    · rw [if_neg hD]
      apply List.filter_eq_self.mpr
      intro a ha
      have hnd : a.1 ∉ to_delete deltas :=
        applyDeltas_no_delete deltas cur hd a (hS.subset ha)
      simp [hnd]
  unfold applyDeltas
  rw [hdel]
  unfold applyUpserts
  by_cases hU : (to_upsert deltas).isEmpty
  · rw [if_pos hU]
  · rw [if_neg hU]
    have hUfil : (to_upsert deltas).filter
        (fun l => !decide (l.1 ∈ (to_upsert deltas).map Prod.fst)) = [] := by
      apply List.filter_eq_nil_iff.mpr
      intro u hu
      simp [List.mem_map_of_mem Prod.fst hu]
    have hAfil : ((applyDeletes deltas cur).filter
          (fun l => !decide (l.1 ∈ (to_upsert deltas).map Prod.fst))).filter
          (fun l => !decide (l.1 ∈ (to_upsert deltas).map Prod.fst)) =
        (applyDeletes deltas cur).filter
          (fun l => !decide (l.1 ∈ (to_upsert deltas).map Prod.fst)) := by
      apply List.filter_eq_self.mpr
      intro a ha
      exact (List.mem_filter.mp ha).2
    have hres : applyDeltas deltas cur =
        (applyDeletes deltas cur).filter
          (fun l => !decide (l.1 ∈ (to_upsert deltas).map Prod.fst)) ++
          to_upsert deltas := by
      unfold applyDeltas applyUpserts
      rw [if_neg hU]
    have h1 : (S.filter (fun l => !decide (l.1 ∈ (to_upsert deltas).map Prod.fst))).Perm
        ((applyDeltas deltas cur).filter
          (fun l => !decide (l.1 ∈ (to_upsert deltas).map Prod.fst))) :=
      List.Perm.filter _ hS
    rw [hres, List.filter_append, hAfil, hUfil, List.append_nil] at h1
    have h2 := List.Perm.append_right (to_upsert deltas) h1
    rw [← hres] at h2
    exact h2.trans hS.symm

/-- Re-sorting after re-applying the same duplicate-free deltas reproduces
the sorted side verbatim. -/
lemma applyDeltas_mergeSort_idem (desc : Bool) (deltas cur : List PriceLevel)
    (hd : (prices deltas).Nodup) (hc : (prices cur).Nodup) :
    (applyDeltas deltas
        ((applyDeltas deltas cur).mergeSort (sideLe desc))).mergeSort (sideLe desc) =
      (applyDeltas deltas cur).mergeSort (sideLe desc) := by
  have hSR : ((applyDeltas deltas cur).mergeSort (sideLe desc)).Perm
      (applyDeltas deltas cur) := List.mergeSort_perm _ _
  have hT : (applyDeltas deltas
      ((applyDeltas deltas cur).mergeSort (sideLe desc))).Perm
      ((applyDeltas deltas cur).mergeSort (sideLe desc)) :=
    applyDeltas_idem_perm deltas cur _ hd hSR
  have hRnd : (prices (applyDeltas deltas cur)).Nodup := applyDeltas_nodup deltas cur hd hc
  have hSnd : (prices ((applyDeltas deltas cur).mergeSort (sideLe desc))).Nodup :=
    hRnd.perm (hSR.map Prod.fst).symm
  exact eq_of_perm_sorted_nodup desc _ _ ((List.mergeSort_perm _ _).trans hT)
    (List.sorted_mergeSort (sideLe_trans desc) (sideLe_total desc) _)
    (List.sorted_mergeSort (sideLe_trans desc) (sideLe_total desc) _) hSnd

/-- C10: applying the same parsed depth delta message twice in succession
yields the same occupied prefixes and occupied lengths as applying it once:
the deletions now hit absent prices and the upserts replace the rows they
inserted, so the second application changes nothing observable. -/
theorem update_book_idem (b : Book) (dB dA : List PriceLevel)
    (hb : b.bids.length = b.max_levels_bid) (ha : b.asks.length = b.max_levels_ask)
    (hob : (prices (occupiedBids b)).Nodup) (hoa : (prices (occupiedAsks b)).Nodup)
    (hdB : (prices dB).Nodup) (hdA : (prices dA).Nodup) :
    (update_book (update_book b dB dA) dB dA).n_levels_bid =
      (update_book b dB dA).n_levels_bid ∧
    (update_book (update_book b dB dA) dB dA).n_levels_ask =
      (update_book b dB dA).n_levels_ask ∧
    occupiedBids (update_book (update_book b dB dA) dB dA) =
      occupiedBids (update_book b dB dA) ∧
    occupiedAsks (update_book (update_book b dB dA) dB dA) =
      occupiedAsks (update_book b dB dA) := by
  obtain ⟨hoB, hoA, hlb, hla, hnb, hna, _⟩ := update_book_occupied b dB dA hb ha
  obtain ⟨hoB2, hoA2, _, _, hnb2, hna2, _⟩ :=
    update_book_occupied (update_book b dB dA) dB dA hlb hla
  have hidB := applyDeltas_mergeSort_idem true dB (occupiedBids b) hdB hob
  have hidA := applyDeltas_mergeSort_idem false dA (occupiedAsks b) hdA hoa
  refine ⟨?_, ?_, ?_, ?_⟩
  · rw [hnb2, hoB, hidB]
    exact hnb.symm
  · rw [hna2, hoA, hidA]
    exact hna.symm
  · rw [hoB2, hoB, hidB]
  · rw [hoA2, hoA, hidA]

/-- Witness for C10 on a one-level upsert against a fresh book. -/
theorem update_book_idem_witness :
    (update_book (update_book (Book.init "X" 2) [((1 : ℚ), (2 : ℚ))] [])
        [((1 : ℚ), (2 : ℚ))] []).n_levels_bid =
      (update_book (Book.init "X" 2) [((1 : ℚ), (2 : ℚ))] []).n_levels_bid :=
  (update_book_idem (Book.init "X" 2) [((1 : ℚ), (2 : ℚ))] []
    (by decide) (by decide) (by decide) (by decide) (by decide) (by decide)).1

/-- Lookup after upserting the same price: a fresh price stores the new
pair, a present one is replaced only on a strictly later time. -/
lemma lookupA_upsert_self (m : List (ℚ × ℚ × ℤ)) (p q : ℚ) (t : ℤ) :
    lookupA (upsertLevel m p q t) p =
      some (match lookupA m p with
            | none => (q, t)
            | some (q0, t0) => if t0 < t then (q, t) else (q0, t0)) := by
  induction m with
  | nil => simp [upsertLevel, lookupA]
  | cons hd tl ih =>
    obtain ⟨p0, q0, t0⟩ := hd
    by_cases hp : p0 = p
    · by_cases ht : t0 < t <;> simp [upsertLevel, lookupA, hp, ht]
    · simp [upsertLevel, lookupA, hp, ih]

/-- Upserting one price leaves every other price's entry unchanged. -/
lemma lookupA_upsert_ne (m : List (ℚ × ℚ × ℤ)) (p q : ℚ) (t : ℤ) (p2 : ℚ)
    (hne : p2 ≠ p) : lookupA (upsertLevel m p q t) p2 = lookupA m p2 := by
  have hne2 : ¬ p = p2 := fun h => hne h.symm
  induction m with
  | nil => simp [upsertLevel, lookupA, hne2]
  | cons hd tl ih =>
    obtain ⟨p0, q0, t0⟩ := hd
    by_cases hp : p0 = p
    · subst hp
      by_cases ht : t0 < t <;> simp [upsertLevel, lookupA, ht, hne2]
    · simp [upsertLevel, lookupA, hp, ih]

/-- Once a price holds an entry at least as recent as every remaining
matching update, the fold never changes that entry again. -/
lemma foldSide_preserve (isBid : Bool) (us : List ParsedUpdate)
    (acc : List (ℚ × ℚ × ℤ)) (p q : ℚ) (t : ℤ)
    (hl : lookupA acc p = some (q, t))
    (hmax : ∀ v ∈ us, v.isBid = isBid → v.price = p → v.time ≤ t) :
    lookupA (foldSide isBid us acc) p = some (q, t) := by
  induction us generalizing acc with
  | nil => simpa [foldSide] using hl
  | cons w rest ih =>
    simp only [foldSide]
    by_cases hws : w.isBid = isBid
    · rw [if_pos hws]
      by_cases hwp : w.price = p
      · have hwt : w.time ≤ t := hmax w (List.mem_cons_self w rest) hws hwp
        refine ih _ ?_ (fun v hv => hmax v (List.mem_cons_of_mem w hv))
        rw [hwp, lookupA_upsert_self, hl]
        simp [not_lt.mpr hwt]
      · refine ih _ ?_ (fun v hv => hmax v (List.mem_cons_of_mem w hv))
        rw [lookupA_upsert_ne _ _ _ _ _ (fun h => hwp h.symm)]
        exact hl
    · rw [if_neg hws]
      exact ih _ hl (fun v hv => hmax v (List.mem_cons_of_mem w hv))

/-- When `u` carries a strictly later event time than every other matching
entry (identical duplicates of `u` aside) and every entry already stored
for its price is older, the fold ends with `u`'s quantity and time at
`u`'s price. -/
lemma foldSide_latest (isBid : Bool) (us : List ParsedUpdate) (u : ParsedUpdate)
    (hmem : u ∈ us) (hside : u.isBid = isBid) (acc : List (ℚ × ℚ × ℤ))
    (hacc : ∀ q t, lookupA acc u.price = some (q, t) → t < u.time)
    (hlatest : ∀ v ∈ us, v.isBid = isBid → v.price = u.price →
      v.time < u.time ∨ v = u) :
    lookupA (foldSide isBid us acc) u.price = some (u.qty, u.time) := by
  induction us generalizing acc with
  | nil => cases hmem
  | cons w rest ih =>
    simp only [foldSide]
    by_cases hws : w.isBid = isBid
    · rw [if_pos hws]
      by_cases hwp : w.price = u.price
      · rcases hlatest w (List.mem_cons_self w rest) hws hwp with hlt | heq
        · have hwu : w ≠ u := by
            intro h
            rw [h] at hlt
            exact lt_irrefl _ hlt
          have hmem2 : u ∈ rest := by
            rcases List.mem_cons.mp hmem with h | h
            · exact absurd h.symm hwu
            · exact h
          refine ih hmem2 _ ?_ (fun v hv => hlatest v (List.mem_cons_of_mem w hv))
          intro q t hlook
          rw [hwp, lookupA_upsert_self] at hlook
          cases hlk : lookupA acc u.price with
          | none =>
            rw [hlk] at hlook
            simp only [Option.some.injEq, Prod.mk.injEq] at hlook
            rw [← hlook.2]
            exact hlt
          | some pair =>
            obtain ⟨q0, t0⟩ := pair
            have ht0 := hacc q0 t0 hlk
            rw [hlk] at hlook
            by_cases h2 : t0 < w.time <;>
              simp only [h2, if_true, if_false, Option.some.injEq, Prod.mk.injEq] at hlook
            · rw [← hlook.2]
              exact hlt
            · rw [← hlook.2]
              exact ht0
        · rcases heq with rfl
          refine foldSide_preserve isBid rest _ w.price w.qty w.time ?_ ?_
          · rw [lookupA_upsert_self]
            cases hlk : lookupA acc w.price with
            | none => simp
            | some pair =>
              obtain ⟨q0, t0⟩ := pair
              have ht0 := hacc q0 t0 hlk
              simp [ht0]
          · intro v hv hvs hvp
            rcases hlatest v (List.mem_cons_of_mem w hv) hvs hvp with h | h
            · exact le_of_lt h
            · rw [h]
      · have hwu : w ≠ u := by
          intro h
          rw [h] at hwp
          exact hwp rfl
        have hmem2 : u ∈ rest := by
          rcases List.mem_cons.mp hmem with h | h
          · exact absurd h.symm hwu
          · exact h
        refine ih hmem2 _ ?_ (fun v hv => hlatest v (List.mem_cons_of_mem w hv))
        intro q t hlook
        rw [lookupA_upsert_ne _ _ _ _ _ (fun h => hwp h.symm)] at hlook
        exact hacc q t hlook
    · rw [if_neg hws]
      have hwu : w ≠ u := by
        intro h
        rw [h] at hws
        exact hws hside
      have hmem2 : u ∈ rest := by
        rcases List.mem_cons.mp hmem with h | h
        · exact absurd h.symm hwu
        · exact h
      exact ih hmem2 _ hacc (fun v hv => hlatest v (List.mem_cons_of_mem w hv))

/-- A list of fully parsed updates round-trips through `parseUpdates`. -/
lemma parseUpdates_rawOfParsed (us : List ParsedUpdate) :
    parseUpdates (us.map rawOfParsed) = some us := by
  induction us with
  | nil => rfl
  | cons u rest ih =>
    have hu : parseUpdate (rawOfParsed u) = some u := by
      obtain ⟨ib, p, q, t⟩ := u
      cases ib <;> rfl
    simp [parseUpdates, hu, ih]

/-- Quantity lookup on the emitted rows agrees with the accumulator. -/
lemma lookupQ_levelsOf (m : List (ℚ × ℚ × ℤ)) (p : ℚ) :
    lookupQ (levelsOf m) p = (lookupA m p).map Prod.fst := by
  induction m with
  | nil => rfl
  | cons hd tl ih =>
    obtain ⟨p0, q0, t0⟩ := hd
    by_cases h : p0 = p
    · simp [levelsOf, lookupQ, lookupA, h]
    · simp [levelsOf, lookupQ, lookupA, h]
      exact ih

/-- C4: in a message parsed by `_parse_data`, when one update entry for a
given (side, price) carries a strictly later event time than every other
entry for that (side, price) (identical duplicate entries aside), that
entry's quantity is the one stored for the price, wherever the entries sit
in the update array; the result is a function of the message, so equal
event times resolve deterministically. -/
theorem parse_latest_event_time_wins (seq ts : ℤ) (us : List ParsedUpdate)
    (u : ParsedUpdate) (hmem : u ∈ us)
    (hlatest : ∀ v ∈ us, v.isBid = u.isBid → v.price = u.price →
      v.time < u.time ∨ v = u) :
    ∃ bs aks, parse_data ⟨seq, some ts, us.map rawOfParsed⟩ = some (ts, bs, aks) ∧
      lookupQ (if u.isBid then bs else aks) u.price = some u.qty := by
  refine ⟨levelsOf (foldSide true us []), levelsOf (foldSide false us []), ?_, ?_⟩
  · simp [parse_data, parseUpdates_rawOfParsed]
  · have hfold := foldSide_latest u.isBid us u hmem rfl []
      (fun q t h => by simp [lookupA] at h) hlatest
    cases hb : u.isBid
    · rw [hb] at hfold
      simp only [hb, if_false, Bool.false_eq_true]
      rw [lookupQ_levelsOf, hfold]
      rfl
    · rw [hb] at hfold
      simp only [hb, if_true]
      rw [lookupQ_levelsOf, hfold]
      rfl

/-- Witness for C4: two bid entries at price 100; the later event time
(quantity 2) wins although it sits second in the array. -/
theorem parse_latest_event_time_wins_witness :
    ∃ bs aks,
      parse_data ⟨7, some 0,
        ([⟨true, 100, 1, 0⟩, ⟨true, 100, 2, 1⟩] : List ParsedUpdate).map rawOfParsed⟩ =
        some (0, bs, aks) ∧
      lookupQ bs (100 : ℚ) = some 2 := by
  have h := parse_latest_event_time_wins 7 0 [⟨true, 100, 1, 0⟩, ⟨true, 100, 2, 1⟩]
    ⟨true, 100, 2, 1⟩ (by decide) (by decide)
  simpa using h

/-- Prices recorded by the accumulator after an upsert: unchanged when the
price was present, extended by the new price otherwise. -/
lemma keysA_upsertLevel (m : List (ℚ × ℚ × ℤ)) (p q : ℚ) (t : ℤ) :
    keysA (upsertLevel m p q t) =
      if p ∈ keysA m then keysA m else keysA m ++ [p] := by
  induction m with
  | nil => simp [upsertLevel, keysA]
  | cons hd tl ih =>
    obtain ⟨p0, q0, t0⟩ := hd
    by_cases hp : p0 = p
    · subst hp
      by_cases ht : t0 < t <;> simp [upsertLevel, keysA, ht]
    · have hne : ¬ p = p0 := fun h => hp h.symm
      have hcons : upsertLevel ((p0, q0, t0) :: tl) p q t =
          (p0, q0, t0) :: upsertLevel tl p q t := by
        simp [upsertLevel, hp]
      rw [hcons]
      have hk : keysA ((p0, q0, t0) :: upsertLevel tl p q t) =
          p0 :: keysA (upsertLevel tl p q t) := rfl
      have hk2 : keysA ((p0, q0, t0) :: tl) = p0 :: keysA tl := rfl
      rw [hk, hk2, ih]
      by_cases hmem : p ∈ keysA tl
      · simp [hmem, hne]
      · simp [hmem, hne]

/-- The accumulator keeps duplicate-free prices. -/
lemma keysA_upsertLevel_nodup (m : List (ℚ × ℚ × ℤ)) (p q : ℚ) (t : ℤ)
    (h : (keysA m).Nodup) : (keysA (upsertLevel m p q t)).Nodup := by
  rw [keysA_upsertLevel]
  by_cases hmem : p ∈ keysA m
  · rwa [if_pos hmem]
  · rw [if_neg hmem]
    refine h.append (List.nodup_singleton p) ?_
    intro a ha hb
    rw [List.mem_singleton.mp hb] at ha
    exact hmem ha

/-- The fold keeps duplicate-free prices. -/
lemma foldSide_keys_nodup (isBid : Bool) (us : List ParsedUpdate)
    (acc : List (ℚ × ℚ × ℤ)) (h : (keysA acc).Nodup) :
    (keysA (foldSide isBid us acc)).Nodup := by
  induction us generalizing acc with
  | nil => simpa [foldSide]
  | cons u rest ih =>
    simp only [foldSide]
    by_cases hs : u.isBid = isBid
    · rw [if_pos hs]
      exact ih _ (keysA_upsertLevel_nodup _ _ _ _ h)
    · rw [if_neg hs]
      exact ih _ h

/-- `_parse_data` emits duplicate-free prices on each side, which is what
the sortedness hypothesis of the `_update_book` invariant relies on. -/
lemma parse_data_nodup (m : RawMessage) (r : ℤ × List PriceLevel × List PriceLevel)
    (h : parse_data m = some r) :
    (prices r.2.1).Nodup ∧ (prices r.2.2).Nodup := by
  unfold parse_data at h
  cases hts : m.timestamp with
  | none => rw [hts] at h; cases h
  | some ts =>
    rw [hts] at h
    cases hus : parseUpdates m.updates with
    | none => rw [hus] at h; cases h
    | some us =>
      rw [hus] at h
      have hkeys : ∀ mm : List (ℚ × ℚ × ℤ), prices (levelsOf mm) = keysA mm := by
        intro mm
        simp [prices, levelsOf, keysA, List.map_map]
      cases h
      constructor
      · rw [hkeys]
        exact foldSide_keys_nodup true us [] (by simp [keysA])
      · rw [hkeys]
        exact foldSide_keys_nodup false us [] (by simp [keysA])

end CoinMonster
